import Mathlib

/-!
Verification of the embedding-backed similarity-search subsystem of the
ILA note archive against its specification.

The development shallowly embeds the Python source:

* `ai_logic.py`: `cosine_similarity`, `cosine_similarity_batch` over real
  vectors (`List ℝ`, with `Option` for the `None` sentinel), and the
  vector codec `vector_to_bytes` / `bytes_to_vector` at the level of
  32-bit patterns (`Nat` below `2 ^ 32`) and bytes (`Nat` below `256`),
  which captures float32 values bit-for-bit.
* `ingestor.py`: `chunk_text` over `List Char`, and the per-chunk
  store-loop of `ingest_file` including its keyword-argument call to
  `database.add_note`.
* `main.py`: the `find` ranking pipeline (filter, batch similarity,
  stable descending sort, top 3).
-/

/-! ## Similarity engine (`ai_logic.py`) -/

/-- Dot product of two real vectors, `np.dot` on 1-D arrays. -/
def dotp (a b : List ℝ) : ℝ := (List.zipWith (fun x y => x * y) a b).sum

/-- Euclidean norm `np.linalg.norm`. -/
noncomputable def norm2 (a : List ℝ) : ℝ := Real.sqrt (dotp a a)

/-- `np.clip (x, -1.0, 1.0)`. -/
noncomputable def clip1 (x : ℝ) : ℝ := max (-1) (min x 1)

open Classical in
/-- `ai_logic.cosine_similarity`.  `none` models Python `None`; the shape
of a 1-D vector after `flatten()` is its length. -/
noncomputable def cosine_similarity : Option (List ℝ) → Option (List ℝ) → ℝ
  | none, _ => 0
  | some _, none => 0
  | some v1, some v2 =>
    if v1.length = v2.length then
      if norm2 v1 = 0 ∨ norm2 v2 = 0 then 0
      else clip1 (dotp v1 v2 / (norm2 v1 * norm2 v2))
    else 0

open Classical in
/-- `ai_logic.cosine_similarity_batch`.  The candidate matrix is a list of
rows; `np.linalg.norm (· , axis 1)` is the row-wise norm, a zero row norm
is substituted by `1` before dividing, and the matrix-vector product
`np.dot` dots every normalized row with the normalized query. -/
noncomputable def cosine_similarity_batch :
    Option (List ℝ) → Option (List (List ℝ)) → List ℝ
  | none, _ => []
  | some _, none => []
  | some q, some rows =>
    if rows.length = 0 then []
    else if norm2 q = 0 then List.replicate rows.length 0
    else
      rows.map (fun row =>
        let nrm := if norm2 row = 0 then 1 else norm2 row
        clip1 (dotp (row.map (fun x => x / nrm)) (q.map (fun x => x / norm2 q))))

theorem dotp_nil_right (a : List ℝ) : dotp a [] = 0 := by
  cases a <;> simp [dotp]

theorem dotp_cons (x y : ℝ) (a b : List ℝ) :
    dotp (x :: a) (y :: b) = x * y + dotp a b := by
  simp [dotp]

theorem dotp_comm (a b : List ℝ) : dotp a b = dotp b a := by
  induction a generalizing b with
  | nil => cases b <;> simp [dotp]
  | cons x t ih =>
    cases b with
    | nil => simp [dotp]
    | cons y s => simp [dotp_cons, mul_comm, ih]

theorem dotp_self_nonneg (a : List ℝ) : 0 ≤ dotp a a := by
  induction a with
  | nil => simp [dotp]
  | cons x t ih =>
    rw [dotp_cons]
    exact add_nonneg (mul_self_nonneg x) ih

theorem norm2_nonneg (a : List ℝ) : 0 ≤ norm2 a := Real.sqrt_nonneg _

theorem norm2_eq_zero_iff (a : List ℝ) : norm2 a = 0 ↔ dotp a a = 0 := by
  unfold norm2
  exact Real.sqrt_eq_zero (dotp_self_nonneg a)

theorem dotp_self_eq_zero_forall (a : List ℝ) (h : dotp a a = 0) :
    ∀ x ∈ a, x = 0 := by
  induction a with
  | nil => simp
  | cons x t ih =>
    rw [dotp_cons] at h
    have hx : x * x = 0 ∧ dotp t t = 0 :=
      (add_eq_zero_iff_of_nonneg (mul_self_nonneg x) (dotp_self_nonneg t)).mp h
    intro y hy
    rcases List.mem_cons.mp hy with hy | hy
    · subst hy
      exact mul_self_eq_zero.mp hx.1
    · exact ih hx.2 y hy

theorem dotp_eq_zero_of_left_zero (a b : List ℝ) (h : ∀ x ∈ a, x = 0) :
    dotp a b = 0 := by
  induction a generalizing b with
  | nil => simp [dotp]
  | cons x t ih =>
    cases b with
    | nil => simp [dotp]
    | cons y s =>
      rw [dotp_cons, h x (List.mem_cons_self x t), zero_mul, zero_add]
      exact ih s (fun z hz => h z (List.mem_cons_of_mem x hz))

theorem dotp_map_div (a b : List ℝ) (c d : ℝ) :
    dotp (a.map (fun x => x / c)) (b.map (fun x => x / d)) = dotp a b / (c * d) := by
  induction a generalizing b with
  | nil => simp [dotp]
  | cons x t ih =>
    cases b with
    | nil => simp [dotp]
    | cons y s =>
      simp only [List.map_cons, dotp_cons, ih]
      rw [div_mul_div_comm, div_add_div_same]

/-- C9: the single-pair similarity function is symmetric in its two
arguments, in every case (absent inputs, shape mismatch, zero norms and
the generic clamped-ratio case alike). -/
theorem claim_C9_similarity_symm (a b : Option (List ℝ)) :
    cosine_similarity a b = cosine_similarity b a := by
  cases a with
  | none => cases b <;> simp [cosine_similarity]
  | some v =>
    cases b with
    | none => simp [cosine_similarity]
    | some w =>
      simp only [cosine_similarity]
      by_cases hl : v.length = w.length
      · rw [if_pos hl, if_pos hl.symm]
        by_cases hn : norm2 v = 0 ∨ norm2 w = 0
        · rw [if_pos hn, if_pos (Or.symm hn)]
        · rw [if_neg hn, if_neg (fun h => hn (Or.symm h)), dotp_comm,
            mul_comm]
      · rw [if_neg hl, if_neg (fun h => hl h.symm)]

/-- C10: when the query vector is absent, or the candidate collection is
absent or has zero rows, the batched similarity returns the empty result,
regardless of how many candidate rows were supplied (in particular it is
not a length-N vector of zeros in the absent-query case). -/
theorem claim_C10_batch_degenerate_empty :
    (∀ rows : List (List ℝ), cosine_similarity_batch none (some rows) = []) ∧
    (∀ q : Option (List ℝ), cosine_similarity_batch q none = []) ∧
    (∀ q : List ℝ, cosine_similarity_batch (some q) (some ([] : List (List ℝ))) = []) := by
  refine ⟨fun rows => rfl, fun q => ?_, fun q => ?_⟩
  · cases q <;> rfl
  · simp [cosine_similarity_batch]

theorem neg_one_le_clip1 (x : ℝ) : -1 ≤ clip1 x := le_max_left _ _

theorem clip1_le_one (x : ℝ) : clip1 x ≤ 1 :=
  max_le (by norm_num) (min_le_right _ _)

theorem clip1_zero : clip1 0 = 0 := by
  unfold clip1
  rw [min_eq_left (by norm_num : (0:ℝ) ≤ 1), max_eq_right (by norm_num : (-1:ℝ) ≤ 0)]

/-- C6: the single-pair similarity is always in `[-1, 1]`; it is exactly
`0` when either input is absent, when the flattened shapes mismatch, or
when either norm is zero; otherwise it is the cosine ratio clamped to
`[-1, 1]`.  Degenerate inputs are never an error (the function is total). -/
theorem claim_C6_similarity_cases (a b : Option (List ℝ)) :
    (-1 ≤ cosine_similarity a b ∧ cosine_similarity a b ≤ 1) ∧
    ((a = none ∨ b = none) → cosine_similarity a b = 0) ∧
    (∀ v w, a = some v → b = some w →
      (v.length ≠ w.length → cosine_similarity a b = 0) ∧
      ((norm2 v = 0 ∨ norm2 w = 0) → cosine_similarity a b = 0) ∧
      (v.length = w.length → ¬(norm2 v = 0 ∨ norm2 w = 0) →
        cosine_similarity a b = clip1 (dotp v w / (norm2 v * norm2 w)))) := by
  refine ⟨?_, ?_, ?_⟩
  · cases a with
    | none => simp [cosine_similarity]
    | some v =>
      cases b with
      | none => simp [cosine_similarity]
      | some w =>
        simp only [cosine_similarity]
        split
        · split
          · norm_num
          · exact ⟨neg_one_le_clip1 _, clip1_le_one _⟩
        · norm_num
  · intro h
    rcases h with h | h
    · subst h; rfl
    · subst h; cases a <;> rfl
  · intro v w ha hb
    subst ha; subst hb
    simp only [cosine_similarity]
    refine ⟨fun hne => ?_, fun hz => ?_, fun hl hn => ?_⟩
    · rw [if_neg hne]
    · by_cases hl : v.length = w.length
      · rw [if_pos hl, if_pos hz]
      · rw [if_neg hl]
    · rw [if_pos hl, if_neg hn]

/-- Closed witness for C6: at a concrete input with an absent first
argument the similarity evaluates to `0`. -/
theorem claim_C6_similarity_cases_witness :
    cosine_similarity none (some [(1 : ℝ)]) = 0 :=
  (claim_C6_similarity_cases none (some [(1 : ℝ)])).2.1 (Or.inl rfl)

theorem batch_row_eq_single (q r : List ℝ) (hq : norm2 q ≠ 0)
    (hlen : r.length = q.length) :
    clip1 (dotp (r.map (fun x => x / (if norm2 r = 0 then 1 else norm2 r)))
        (q.map (fun x => x / norm2 q)))
      = cosine_similarity (some q) (some r) := by
  simp only [cosine_similarity, if_pos hlen.symm]
  by_cases hr : norm2 r = 0
  · rw [if_pos (Or.inr hr), if_pos hr]
    have hzero : ∀ x ∈ r, x = 0 :=
      dotp_self_eq_zero_forall r ((norm2_eq_zero_iff r).mp hr)
    have hmap : r.map (fun x => x / 1) = r := by
      simp
    rw [hmap, dotp_eq_zero_of_left_zero r _ hzero, clip1_zero]
  · have hcond : ¬(norm2 q = 0 ∨ norm2 r = 0) := fun h => h.elim hq hr
    rw [if_neg hcond, if_neg hr, dotp_map_div, dotp_comm r q,
      mul_comm (norm2 r) (norm2 q)]

/-- C1: for a query `q` and a candidate matrix (a list of rows all of the
query's dimension, as in the typed batched contract), the batched
similarity has one score per row, the `i`-th score equals the single-pair
similarity of `q` with row `i` (same clamping and zero-norm policy per
row), and an empty candidate matrix yields the empty result. -/
theorem claim_C1_batch_single_equiv (q : List ℝ) (rows : List (List ℝ))
    (hdim : ∀ r ∈ rows, r.length = q.length) :
    (cosine_similarity_batch (some q) (some rows)).length = rows.length ∧
    (∀ i : Nat, (cosine_similarity_batch (some q) (some rows))[i]? =
      (rows[i]?).map (fun r => cosine_similarity (some q) (some r))) ∧
    (rows = [] → cosine_similarity_batch (some q) (some rows) = []) := by
  have hb : cosine_similarity_batch (some q) (some rows) =
      if rows.length = 0 then []
      else if norm2 q = 0 then List.replicate rows.length 0
      else rows.map (fun row =>
        let nrm := if norm2 row = 0 then 1 else norm2 row
        clip1 (dotp (row.map (fun x => x / nrm))
          (q.map (fun x => x / norm2 q)))) := rfl
  by_cases h0 : rows.length = 0
  · have hnil : rows = [] := List.length_eq_zero.mp h0
    subst hnil
    refine ⟨rfl, fun i => by simp [hb], fun _ => rfl⟩
  · by_cases hq : norm2 q = 0
    · rw [hb, if_neg h0, if_pos hq]
      refine ⟨List.length_replicate _ _, fun i => ?_, fun he => absurd (by simp [he]) h0⟩
      rcases Nat.lt_or_ge i rows.length with hi | hi
      · rw [List.getElem?_replicate, if_pos hi, List.getElem?_eq_getElem hi]
        have hmem : rows[i] ∈ rows := List.getElem_mem hi
        simp only [Option.map_some']
        rw [show cosine_similarity (some q) (some rows[i]) = 0 from ?_]
        simp only [cosine_similarity, if_pos (hdim _ hmem).symm, if_pos (Or.inl hq)]
      · rw [List.getElem?_replicate, if_neg (Nat.not_lt.mpr hi),
          List.getElem?_eq_none hi, Option.map_none']
    · rw [hb, if_neg h0, if_neg hq]
      refine ⟨List.length_map _ _, fun i => ?_, fun he => absurd (by simp [he]) h0⟩
      rw [List.getElem?_map]
      rcases Nat.lt_or_ge i rows.length with hi | hi
      · rw [List.getElem?_eq_getElem hi]
        have hmem : rows[i] ∈ rows := List.getElem_mem hi
        simp only [Option.map_some']
        rw [batch_row_eq_single q rows[i] hq (hdim _ hmem)]
      · rw [List.getElem?_eq_none hi]
        rfl

/-- Closed witness for C1: with query `[0]` and one candidate row `[0]`
the dimension hypothesis holds and score `0` of row `0` equals the
single-pair similarity. -/
theorem claim_C1_batch_single_equiv_witness :
    (cosine_similarity_batch (some [(0 : ℝ)]) (some [[(0 : ℝ)]]))[0]? =
      (([[(0 : ℝ)]] : List (List ℝ))[0]?).map
        (fun r => cosine_similarity (some [(0 : ℝ)]) (some r)) :=
  (claim_C1_batch_single_equiv [(0 : ℝ)] [[(0 : ℝ)]]
    (by intro r hr; simp at hr; simp [hr])).2.1 0

/-! ## Vector codec (`ai_logic.py`)

A float32 element is exactly a 32-bit pattern; `ndarray.tobytes` lays the
patterns out as four little-endian bytes each and `np.frombuffer` with
`dtype float32` reads them back, so the codec is embedded on bit patterns
(`Nat < 2 ^ 32`) and bytes (`Nat < 256`). -/

/-- Little-endian byte quadruple of one 32-bit pattern. -/
def wordBytes (w : Nat) : List Nat :=
  [w % 256, w / 256 % 256, w / 65536 % 256, w / 16777216 % 256]

/-- `ai_logic.vector_to_bytes`: `vector.tobytes()`, the concatenation of
the per-element byte quadruples. -/
def vector_to_bytes (v : List Nat) : List Nat := v.flatMap wordBytes

/-- `ai_logic.bytes_to_vector` on a present buffer:
`np.frombuffer (data, float32).flatten()`.  Groups of four bytes are
recomposed little-endian; a buffer whose size is not a multiple of four
makes `frombuffer` raise, modelled as `none`. -/
def bytes_to_vector : List Nat → Option (List Nat)
  | [] => some []
  | b0 :: b1 :: b2 :: b3 :: rest =>
    (bytes_to_vector rest).map
      (fun v => (b0 + 256 * b1 + 65536 * b2 + 16777216 * b3) :: v)
  | _ => none

/-- C7: decoding an encoded float32 vector returns it exactly, element
for element (bit-for-bit byte round-trip); the hypothesis states that
every element is a 32-bit pattern, which every float32 value is. -/
theorem claim_C7_codec_roundtrip (v : List Nat) (h : ∀ w ∈ v, w < 4294967296) :
    bytes_to_vector (vector_to_bytes v) = some v := by
  induction v with
  | nil => rfl
  | cons w t ih =>
    have hw : w < 4294967296 := h w (List.mem_cons_self w t)
    have ht : bytes_to_vector (vector_to_bytes t) = some t :=
      ih (fun x hx => h x (List.mem_cons_of_mem w hx))
    have hstep : vector_to_bytes (w :: t) =
        w % 256 :: w / 256 % 256 :: w / 65536 % 256 :: w / 16777216 % 256 ::
          vector_to_bytes t := rfl
    rw [hstep]
    simp only [bytes_to_vector, ht, Option.map_some']
    have hrec : w % 256 + 256 * (w / 256 % 256) + 65536 * (w / 65536 % 256) +
        16777216 * (w / 16777216 % 256) = w := by omega
    rw [hrec]

/-- Closed witness for C7: a two-element vector holding the extreme
32-bit patterns round-trips exactly. -/
theorem claim_C7_codec_roundtrip_witness :
    bytes_to_vector (vector_to_bytes [0, 4294967295]) = some [0, 4294967295] :=
  claim_C7_codec_roundtrip [0, 4294967295] (by decide)

/-! ## Chunker (`ingestor.py`) -/

/-- The space character (code point 32). -/
def spaceChar : Char := Char.ofNat 32

/-- Whitespace for Python `str.split()`: space, tab, line feed, carriage
return, vertical tab, form feed. -/
def isSpace (c : Char) : Bool :=
  c == spaceChar || c == Char.ofNat 9 || c == Char.ofNat 10 ||
    c == Char.ofNat 13 || c == Char.ofNat 11 || c == Char.ofNat 12

/-- Helper for `splitWords`: the word prefix accumulating at the front of
the text, together with the complete words of the remainder. -/
def splitAux : List Char → List Char × List (List Char)
  | [] => ([], [])
  | c :: cs =>
    let p := splitAux cs
    if isSpace c then ([], if p.1 = [] then p.2 else p.1 :: p.2)
    else (c :: p.1, p.2)

/-- Python `text.split()`: split on runs of whitespace, no empty words. -/
def splitWords (l : List Char) : List (List Char) :=
  if (splitAux l).1 = [] then (splitAux l).2 else (splitAux l).1 :: (splitAux l).2

/-- Python `" ".join`: intercalate one space between the words. -/
def joinWords : List (List Char) → List Char
  | [] => []
  | [w] => w
  | w :: ws => w ++ spaceChar :: joinWords ws

/-- The word-accumulation loop of `ingestor.chunk_text`: `cur` is
`current_chunk`, `cl` is `current_length` and `k` is `chunk_size`.  A word
appended to the current chunk adds `word.length + 1` (the `+ 1` being the
space) to the counter; when appending would push the counter past `k` and
the current chunk is non-empty, the chunk is flushed and the word starts a
new chunk whose counter is reset to `word.length` alone. -/
def chunkLoop (k : Nat) : List (List Char) → List (List Char) → Nat → List (List Char)
  | [], cur, _ => if cur = [] then [] else [joinWords cur]
  | w :: ws, cur, cl =>
    if k < cl + (w.length + 1) ∧ cur ≠ [] then
      joinWords cur :: chunkLoop k ws [w] w.length
    else
      chunkLoop k ws (cur ++ [w]) (cl + (w.length + 1))

/-- `ingestor.chunk_text` (the source's default `chunk_size` is 500). -/
def chunk_text (text : List Char) (k : Nat) : List (List Char) :=
  if text.length ≤ k then [text] else chunkLoop k (splitWords text) [] 0

/-- C8: text no longer than `chunk_size` is returned as one single
segment equal to the input, no matter its content; in particular the
empty string yields one empty segment (default `chunk_size` 500). -/
theorem claim_C8_short_input_single_segment :
    (∀ (text : List Char) (k : Nat), text.length ≤ k → chunk_text text k = [text]) ∧
    chunk_text [] 500 = [[]] := by
  refine ⟨fun text k h => ?_, rfl⟩
  unfold chunk_text
  rw [if_pos h]

/-- Closed witness for C8: a two-character text is returned whole. -/
theorem claim_C8_short_input_single_segment_witness :
    chunk_text [Char.ofNat 104, Char.ofNat 105] 500 =
      [[Char.ofNat 104, Char.ofNat 105]] :=
  claim_C8_short_input_single_segment.1 [Char.ofNat 104, Char.ofNat 105] 500
    (by decide)

/-- A word produced by `splitWords`: non-empty and free of whitespace. -/
def goodWord (w : List Char) : Prop := w ≠ [] ∧ ∀ c ∈ w, isSpace c = false

theorem splitAux_space (c : Char) (cs : List Char) (h : isSpace c = true) :
    splitAux (c :: cs) = ([], splitWords cs) := by
  simp [splitAux, splitWords, h]

theorem splitAux_nonspace (c : Char) (cs : List Char) (h : isSpace c = false) :
    splitAux (c :: cs) = (c :: (splitAux cs).1, (splitAux cs).2) := by
  simp [splitAux, h]

theorem splitWords_space (c : Char) (cs : List Char) (h : isSpace c = true) :
    splitWords (c :: cs) = splitWords cs := by
  unfold splitWords
  rw [splitAux_space c cs h]
  simp
  rfl

theorem splitAux_good (l : List Char) :
    (∀ c ∈ (splitAux l).1, isSpace c = false) ∧
      (∀ w ∈ (splitAux l).2, goodWord w) := by
  induction l with
  | nil => simp [splitAux]
  | cons c cs ih =>
    cases h : isSpace c with
    | true =>
      rw [splitAux_space c cs h]
      refine ⟨by simp, ?_⟩
      unfold splitWords
      by_cases hf : (splitAux cs).1 = []
      · rw [if_pos hf]
        exact ih.2
      · rw [if_neg hf]
        intro w hw
        rcases List.mem_cons.mp hw with hw | hw
        · subst hw
          exact ⟨hf, ih.1⟩
        · exact ih.2 w hw
    | false =>
      rw [splitAux_nonspace c cs h]
      refine ⟨?_, ih.2⟩
      intro d hd
      rcases List.mem_cons.mp hd with hd | hd
      · subst hd
        exact h
      · exact ih.1 d hd

theorem splitWords_good (l : List Char) : ∀ w ∈ splitWords l, goodWord w := by
  have h := splitAux_good l
  unfold splitWords
  by_cases hf : (splitAux l).1 = []
  · rw [if_pos hf]
    exact h.2
  · rw [if_neg hf]
    intro w hw
    rcases List.mem_cons.mp hw with hw | hw
    · subst hw
      exact ⟨hf, h.1⟩
    · exact h.2 w hw

theorem splitAux_word_sep (w s : List Char)
    (hw : ∀ c ∈ w, isSpace c = false) :
    splitAux (w ++ spaceChar :: s) = (w, splitWords s) := by
  induction w with
  | nil =>
    simp only [List.nil_append]
    exact splitAux_space spaceChar s (by decide)
  | cons c t ih =>
    have hc : isSpace c = false := hw c (List.mem_cons_self c t)
    rw [List.cons_append, splitAux_nonspace c _ hc,
      ih (fun d hd => hw d (List.mem_cons_of_mem c hd))]

theorem splitWords_word_sep (w s : List Char) (hw : goodWord w) :
    splitWords (w ++ spaceChar :: s) = w :: splitWords s := by
  unfold splitWords
  rw [splitAux_word_sep w s hw.2]
  exact if_neg hw.1

theorem splitAux_all_nonspace (w : List Char)
    (hw : ∀ c ∈ w, isSpace c = false) : splitAux w = (w, []) := by
  induction w with
  | nil => rfl
  | cons c t ih =>
    rw [splitAux_nonspace c t (hw c (List.mem_cons_self c t)),
      ih (fun d hd => hw d (List.mem_cons_of_mem c hd))]

theorem splitWords_single (w : List Char) (hw : goodWord w) :
    splitWords w = [w] := by
  unfold splitWords
  rw [splitAux_all_nonspace w hw.2, if_neg hw.1]

theorem splitWords_joinWords (ws : List (List Char))
    (h : ∀ w ∈ ws, goodWord w) : splitWords (joinWords ws) = ws := by
  induction ws with
  | nil => rfl
  | cons w t ih =>
    cases t with
    | nil => exact splitWords_single w (h w (List.mem_cons_self w []))
    | cons w2 t2 =>
      have hjw : joinWords (w :: w2 :: t2) =
          w ++ spaceChar :: joinWords (w2 :: t2) := rfl
      rw [hjw, splitWords_word_sep w _ (h w (List.mem_cons_self _ _)),
        ih (fun u hu => h u (List.mem_cons_of_mem w hu))]

theorem joinWords_cons_cons (w w2 : List Char) (t : List (List Char)) :
    joinWords (w :: w2 :: t) = w ++ spaceChar :: joinWords (w2 :: t) := rfl

theorem joinWords_append (a b : List (List Char)) (ha : a ≠ []) (hb : b ≠ []) :
    joinWords (a ++ b) = joinWords a ++ spaceChar :: joinWords b := by
  induction a with
  | nil => exact absurd rfl ha
  | cons x t ih =>
    cases t with
    | nil =>
      cases b with
      | nil => exact absurd rfl hb
      | cons y s => rfl
    | cons x2 t2 =>
      have h1 : (x :: x2 :: t2) ++ b = x :: x2 :: (t2 ++ b) := rfl
      have h2 : joinWords (x :: x2 :: (t2 ++ b)) =
          x ++ spaceChar :: joinWords (x2 :: (t2 ++ b)) := rfl
      have h3 : joinWords (x2 :: (t2 ++ b)) = joinWords ((x2 :: t2) ++ b) := rfl
      rw [h1, h2, h3, ih (List.cons_ne_nil x2 t2), joinWords_cons_cons]
      simp

theorem joinWords_single_append (l : List (List Char)) (w : List Char)
    (hl : l ≠ []) : joinWords (l ++ [w]) = joinWords l ++ spaceChar :: w :=
  joinWords_append l [w] hl (by simp)

theorem joinWords_flatten_map (G : List (List (List Char)))
    (h : ∀ g ∈ G, g ≠ []) :
    joinWords (G.map joinWords) = joinWords G.flatten := by
  induction G with
  | nil => rfl
  | cons g t ih =>
    cases t with
    | nil =>
      simp
      rfl
    | cons g2 t2 =>
      have hg : g ≠ [] := h g (List.mem_cons_self _ _)
      have hg2 : g2 ≠ [] := h g2 (by simp)
      have hfl : (g2 :: t2).flatten ≠ [] := by
        cases g2 with
        | nil => exact absurd rfl hg2
        | cons c d => simp
      have lhs1 : joinWords ((g :: g2 :: t2).map joinWords) =
          joinWords g ++ spaceChar :: joinWords ((g2 :: t2).map joinWords) := rfl
      rw [lhs1, ih (fun x hx => h x (List.mem_cons_of_mem g hx))]
      have hflc : (g :: g2 :: t2).flatten = g ++ (g2 :: t2).flatten := rfl
      rw [hflc, joinWords_append g _ hg hfl]

/-- The group structure underlying `chunkLoop`: same branching, but
keeping each chunk as its list of words instead of joining them. -/
def groupsLoop (k : Nat) : List (List Char) → List (List Char) → Nat → List (List (List Char))
  | [], cur, _ => if cur = [] then [] else [cur]
  | w :: ws, cur, cl =>
    if k < cl + (w.length + 1) ∧ cur ≠ [] then
      cur :: groupsLoop k ws [w] w.length
    else
      groupsLoop k ws (cur ++ [w]) (cl + (w.length + 1))

theorem chunkLoop_eq_groups (k : Nat) (ws : List (List Char)) :
    ∀ (cur : List (List Char)) (cl : Nat),
      chunkLoop k ws cur cl = (groupsLoop k ws cur cl).map joinWords := by
  induction ws with
  | nil =>
    intro cur cl
    by_cases h : cur = [] <;> simp [chunkLoop, groupsLoop, h]
  | cons w t ih =>
    intro cur cl
    have h1 : chunkLoop k (w :: t) cur cl =
        if k < cl + (w.length + 1) ∧ cur ≠ [] then
          joinWords cur :: chunkLoop k t [w] w.length
        else chunkLoop k t (cur ++ [w]) (cl + (w.length + 1)) := rfl
    have h2 : groupsLoop k (w :: t) cur cl =
        if k < cl + (w.length + 1) ∧ cur ≠ [] then
          cur :: groupsLoop k t [w] w.length
        else groupsLoop k t (cur ++ [w]) (cl + (w.length + 1)) := rfl
    rw [h1, h2]
    by_cases h : k < cl + (w.length + 1) ∧ cur ≠ []
    · rw [if_pos h, if_pos h, List.map_cons, ih]
    · rw [if_neg h, if_neg h, ih]

theorem groupsLoop_flatten (k : Nat) (ws : List (List Char)) :
    ∀ (cur : List (List Char)) (cl : Nat),
      (groupsLoop k ws cur cl).flatten = cur ++ ws := by
  induction ws with
  | nil =>
    intro cur cl
    by_cases h : cur = [] <;> simp [groupsLoop, h]
  | cons w t ih =>
    intro cur cl
    have h2 : groupsLoop k (w :: t) cur cl =
        if k < cl + (w.length + 1) ∧ cur ≠ [] then
          cur :: groupsLoop k t [w] w.length
        else groupsLoop k t (cur ++ [w]) (cl + (w.length + 1)) := rfl
    rw [h2]
    by_cases h : k < cl + (w.length + 1) ∧ cur ≠ []
    · rw [if_pos h]
      simp [ih]
    · rw [if_neg h, ih]
      simp

theorem groupsLoop_ne_nil (k : Nat) (ws : List (List Char)) :
    ∀ (cur : List (List Char)) (cl : Nat),
      ∀ g ∈ groupsLoop k ws cur cl, g ≠ [] := by
  induction ws with
  | nil =>
    intro cur cl g hg
    by_cases h : cur = []
    · simp [groupsLoop, h] at hg
    · simp only [groupsLoop, if_neg h, List.mem_singleton] at hg
      subst hg
      exact h
  | cons w t ih =>
    intro cur cl g hg
    have h2 : groupsLoop k (w :: t) cur cl =
        if k < cl + (w.length + 1) ∧ cur ≠ [] then
          cur :: groupsLoop k t [w] w.length
        else groupsLoop k t (cur ++ [w]) (cl + (w.length + 1)) := rfl
    rw [h2] at hg
    by_cases h : k < cl + (w.length + 1) ∧ cur ≠ []
    · rw [if_pos h] at hg
      rcases List.mem_cons.mp hg with hg | hg
      · subst hg
        exact h.2
      · exact ih [w] w.length g hg
    · rw [if_neg h] at hg
      exact ih (cur ++ [w]) (cl + (w.length + 1)) g hg

theorem groupsLoop_size (k : Nat) (ws : List (List Char)) :
    ∀ (cur : List (List Char)) (cl : Nat),
      (joinWords cur).length ≤ cl →
      (cur ≠ [] → cl ≤ k ∨ ∃ w, cur = [w]) →
      ∀ g ∈ groupsLoop k ws cur cl,
        (joinWords g).length ≤ k ∨ ∃ w, g = [w] := by
  induction ws with
  | nil =>
    intro cur cl h1 h2 g hg
    by_cases hc : cur = []
    · simp [groupsLoop, hc] at hg
    · simp only [groupsLoop, if_neg hc, List.mem_singleton] at hg
      subst hg
      rcases h2 hc with h | h
      · exact Or.inl (le_trans h1 h)
      · exact Or.inr h
  | cons w t ih =>
    intro cur cl h1 h2 g hg
    have he : groupsLoop k (w :: t) cur cl =
        if k < cl + (w.length + 1) ∧ cur ≠ [] then
          cur :: groupsLoop k t [w] w.length
        else groupsLoop k t (cur ++ [w]) (cl + (w.length + 1)) := rfl
    rw [he] at hg
    by_cases hcond : k < cl + (w.length + 1) ∧ cur ≠ []
    · rw [if_pos hcond] at hg
      rcases List.mem_cons.mp hg with hg | hg
      · subst hg
        rcases h2 hcond.2 with h | h
        · exact Or.inl (le_trans h1 h)
        · exact Or.inr h
      · exact ih [w] w.length (le_refl _) (fun _ => Or.inr ⟨w, rfl⟩) g hg
    · rw [if_neg hcond] at hg
      refine ih (cur ++ [w]) (cl + (w.length + 1)) ?_ ?_ g hg
      · by_cases hc : cur = []
        · subst hc
          have hjw : joinWords ([] ++ [w]) = w := rfl
          rw [hjw]
          omega
        · rw [joinWords_single_append cur w hc]
          have : (joinWords cur ++ spaceChar :: w).length =
              (joinWords cur).length + (w.length + 1) := by simp
          omega
      · intro _
        by_cases hc : cur = []
        · subst hc
          exact Or.inr ⟨w, rfl⟩
        · left
          rcases Nat.lt_or_ge k (cl + (w.length + 1)) with hlt | hge
          · exact absurd ⟨hlt, hc⟩ hcond
          · exact hge

/-- C5: for every text and chunk size, (1) joining the returned segments
with single spaces reproduces the original whitespace-separated word
sequence, (2) every word of every segment is a word of the original text
(no mid-word fragment), and (3) every segment is within `chunk_size`
except a segment that is a single oversized word on its own. -/
theorem claim_C5_chunk_invariants (text : List Char) (k : Nat) :
    splitWords (joinWords (chunk_text text k)) = splitWords text ∧
    (∀ seg ∈ chunk_text text k, ∀ w ∈ splitWords seg, w ∈ splitWords text) ∧
    (∀ seg ∈ chunk_text text k, k < seg.length → splitWords seg = [seg]) := by
  by_cases hshort : text.length ≤ k
  · rw [chunk_text, if_pos hshort]
    refine ⟨rfl, ?_, ?_⟩
    · intro seg hseg w hw
      rw [List.mem_singleton] at hseg
      subst hseg
      exact hw
    · intro seg hseg hlen
      rw [List.mem_singleton] at hseg
      subst hseg
      exact absurd hlen (Nat.not_lt.mpr hshort)
  · rw [chunk_text, if_neg hshort]
    have hWgood : ∀ w ∈ splitWords text, goodWord w := splitWords_good text
    have hchunks : chunkLoop k (splitWords text) [] 0 =
        (groupsLoop k (splitWords text) [] 0).map joinWords :=
      chunkLoop_eq_groups k (splitWords text) [] 0
    have hflat : (groupsLoop k (splitWords text) [] 0).flatten = splitWords text := by
      rw [groupsLoop_flatten k (splitWords text) [] 0]
      rfl
    have hne : ∀ g ∈ groupsLoop k (splitWords text) [] 0, g ≠ [] :=
      groupsLoop_ne_nil k (splitWords text) [] 0
    have hGgood : ∀ g ∈ groupsLoop k (splitWords text) [] 0, ∀ w ∈ g, goodWord w := by
      intro g hg w hw
      exact hWgood w (hflat ▸ List.mem_flatten.mpr ⟨g, hg, hw⟩)
    refine ⟨?_, ?_, ?_⟩
    · rw [hchunks, joinWords_flatten_map _ hne, hflat,
        splitWords_joinWords _ hWgood]
    · intro seg hseg w hw
      rw [hchunks] at hseg
      rcases List.mem_map.mp hseg with ⟨g, hgG, rfl⟩
      rw [splitWords_joinWords g (hGgood g hgG)] at hw
      exact hflat ▸ List.mem_flatten.mpr ⟨g, hgG, hw⟩
    · intro seg hseg hlen
      rw [hchunks] at hseg
      rcases List.mem_map.mp hseg with ⟨g, hgG, rfl⟩
      rcases groupsLoop_size k (splitWords text) [] 0 (Nat.le_refl 0)
          (fun h => absurd rfl h) g hgG with h | h
      · exact absurd hlen (Nat.not_lt.mpr h)
      · rcases h with ⟨w, rfl⟩
        exact splitWords_single w (hGgood _ hgG w (by simp))

/-- Closed witness for C5: on the seven-character text `ab cd x` with
`chunk_size` 5 the word `ab` of the first returned segment is a word of
the original text. -/
theorem claim_C5_chunk_invariants_witness :
    [Char.ofNat 97, Char.ofNat 98] ∈ splitWords ("ab cd x".toList) := by
  have h := (claim_C5_chunk_invariants ("ab cd x".toList) 5).2.1
  exact h [Char.ofNat 97, Char.ofNat 98] (by decide)
    [Char.ofNat 97, Char.ofNat 98] (by decide)

/-- The greedy loop exactly as claim C4 words it: the accumulation counter
is the length of the current segment (the words joined with single
spaces), a word is appended while `segment_length + word_length + 1`
stays within `chunk_size`, otherwise the (non-empty) segment is emitted
and the word starts a new one. -/
def chunkLoopClaimedC4 (k : Nat) : List (List Char) → List (List Char) → List (List Char)
  | [], cur => if cur = [] then [] else [joinWords cur]
  | w :: ws, cur =>
    if k < (joinWords cur).length + (w.length + 1) ∧ cur ≠ [] then
      joinWords cur :: chunkLoopClaimedC4 k ws [w]
    else
      chunkLoopClaimedC4 k ws (cur ++ [w])

/-- Chunking as claim C4 describes it (short texts returned whole, long
texts split by `chunkLoopClaimedC4`). -/
def chunk_text_claimedC4 (text : List Char) (k : Nat) : List (List Char) :=
  if text.length ≤ k then [text] else chunkLoopClaimedC4 k (splitWords text) []

/-- Counterexample to C4: on the text `ab cd x` with `chunk_size` 5 the
source emits `ab` and `cd x`, while the algorithm worded in the claim
(counter = length of the current segment) would emit `ab cd` and `x`:
the source counter charges the first word of the initial segment one
extra character, so `ab cd` (length 5 = chunk_size) is not kept together. -/
theorem claim_C4_counterexample :
    chunk_text ("ab cd x".toList) 5 ≠ chunk_text_claimedC4 ("ab cd x".toList) 5 ∧
    chunk_text ("ab cd x".toList) 5 = ["ab".toList, "cd x".toList] ∧
    chunk_text_claimedC4 ("ab cd x".toList) 5 = ["ab cd".toList, "x".toList] := by
  refine ⟨by decide, by decide, by decide⟩

/-- The greedy loop with the counter bookkeeping the source actually
uses, expressed through segment lengths: the counter equals the current
segment's length plus one while the initial segment is accumulating, and
exactly the current segment's length for segments begun after an emit.
`first` records whether no segment has been emitted yet. -/
def chunkLoopAmended (k : Nat) : List (List Char) → List (List Char) → Bool → List (List Char)
  | [], cur, _ => if cur = [] then [] else [joinWords cur]
  | w :: ws, cur, first =>
    if k < (joinWords cur).length + (if first = true ∧ cur ≠ [] then 1 else 0) +
        (w.length + 1) ∧ cur ≠ [] then
      joinWords cur :: chunkLoopAmended k ws [w] false
    else
      chunkLoopAmended k ws (cur ++ [w]) first

/-- Chunking per the amended claim C4. -/
def chunk_text_amendedC4 (text : List Char) (k : Nat) : List (List Char) :=
  if text.length ≤ k then [text] else chunkLoopAmended k (splitWords text) [] true

theorem chunkLoop_eq_amended (k : Nat) (ws : List (List Char)) :
    ∀ (cur : List (List Char)) (cl : Nat) (first : Bool),
      (cur = [] → first = true) →
      cl = (joinWords cur).length + (if first = true ∧ cur ≠ [] then 1 else 0) →
      chunkLoop k ws cur cl = chunkLoopAmended k ws cur first := by
  induction ws with
  | nil =>
    intro cur cl first hinit hcl
    rfl
  | cons w t ih =>
    intro cur cl first hinit hcl
    have h1 : chunkLoop k (w :: t) cur cl =
        if k < cl + (w.length + 1) ∧ cur ≠ [] then
          joinWords cur :: chunkLoop k t [w] w.length
        else chunkLoop k t (cur ++ [w]) (cl + (w.length + 1)) := rfl
    have h2 : chunkLoopAmended k (w :: t) cur first =
        if k < (joinWords cur).length +
            (if first = true ∧ cur ≠ [] then 1 else 0) + (w.length + 1) ∧ cur ≠ [] then
          joinWords cur :: chunkLoopAmended k t [w] false
        else chunkLoopAmended k t (cur ++ [w]) first := rfl
    rw [h1, h2, hcl]
    by_cases hcond : k < (joinWords cur).length +
        (if first = true ∧ cur ≠ [] then 1 else 0) + (w.length + 1) ∧ cur ≠ []
    · rw [if_pos hcond, if_pos hcond]
      rw [ih [w] w.length false (fun h => absurd h (List.cons_ne_nil w [])) ?_]
      have hjw : joinWords [w] = w := rfl
      rw [hjw]
      simp
    · rw [if_neg hcond, if_neg hcond]
      refine ih (cur ++ [w]) _ first (fun h => absurd h (by simp)) ?_
      by_cases hc : cur = []
      · subst hc
        have hjw : joinWords ([] ++ [w]) = w := rfl
        have hjw0 : joinWords ([] : List (List Char)) = [] := rfl
        rw [hjw, hjw0]
        have hfirst : first = true := hinit rfl
        subst hfirst
        simp
      · rw [joinWords_single_append cur w hc]
        have hlen : (joinWords cur ++ spaceChar :: w).length =
            (joinWords cur).length + (w.length + 1) := by simp
        rw [hlen]
        have hne2 : cur ++ [w] ≠ [] := by simp
        cases first with
        | true =>
          rw [if_pos ⟨rfl, hc⟩, if_pos ⟨rfl, hne2⟩]
          omega
        | false =>
          rw [if_neg (fun h => Bool.false_ne_true h.1),
            if_neg (fun h => Bool.false_ne_true h.1)]
          omega

/-- C4 (amended): chunking follows the greedy algorithm of the claim
except for the counter: a word appended to the current segment adds its
length plus one (so the counter is segment length plus one while the
initial segment accumulates), while a word that starts a new segment
after an emit contributes its bare length (counter equals segment
length from then on); segments are emitted only when non-empty, the
trailing segment too. -/
theorem claim_C4_amended_greedy (text : List Char) (k : Nat) :
    chunk_text text k = chunk_text_amendedC4 text k := by
  unfold chunk_text chunk_text_amendedC4
  by_cases h : text.length ≤ k
  · rw [if_pos h, if_pos h]
  · rw [if_neg h, if_neg h]
    exact chunkLoop_eq_amended k (splitWords text) [] 0 true (fun _ => rfl)
      (by decide)

/-! ## Ranking pipeline (`main.py`) -/

/-- A row of the `notes` table as fetched by `database.get_all_notes`
(ascending id), with the embedding blob already decoded to its float
vector — the byte blob and the float32 vector are in bijection by the
codec round trip — and `none` for a NULL blob (legacy note). -/
structure NoteRow where
  id : Nat
  content : String
  embedding : Option (List ℝ)

open Classical in
/-- Python's stable `list.sort` with a real-valued key and
`reverse = True`: the stable descending sort, realized as insertion sort
placing an element before the first strictly smaller key. -/
noncomputable def pySortDesc {α : Type} (key : α → ℝ) (l : List α) : List α :=
  List.insertionSort (fun a b => key b ≤ key a) l

/-- The scored candidate list built inside `main.find`: notes with a
present embedding, in fetch order, zipped with their batched similarity
scores. -/
noncomputable def scoredNotes (q : List ℝ) (notes : List NoteRow) :
    List (NoteRow × ℝ) :=
  (notes.filter (fun n => n.embedding.isSome)).zip
    (cosine_similarity_batch (some q)
      (some ((notes.filter (fun n => n.embedding.isSome)).map
        (fun n => n.embedding.getD []))))

/-- `main.find`: embed the query once (taken here as the already-embedded
vector, the embedder being an opaque boundary), fetch all notes, filter
out the ones without embeddings, batch-score the rest, pair notes with
scores, sort by similarity descending with Python's stable sort, and keep
the first three. -/
noncomputable def find (q : List ℝ) (notes : List NoteRow) :
    List (NoteRow × ℝ) :=
  (pySortDesc (fun x => x.2) (scoredNotes q notes)).take 3

theorem batch_length (q : List ℝ) (rows : List (List ℝ)) :
    (cosine_similarity_batch (some q) (some rows)).length = rows.length := by
  have hb : cosine_similarity_batch (some q) (some rows) =
      if rows.length = 0 then []
      else if norm2 q = 0 then List.replicate rows.length 0
      else rows.map (fun row =>
        let nrm := if norm2 row = 0 then 1 else norm2 row
        clip1 (dotp (row.map (fun x => x / nrm))
          (q.map (fun x => x / norm2 q)))) := rfl
  by_cases h0 : rows.length = 0
  · rw [hb, if_pos h0]
    simp [h0]
  · by_cases hq : norm2 q = 0
    · rw [hb, if_neg h0, if_pos hq]
      simp
    · rw [hb, if_neg h0, if_neg hq]
      simp

theorem scoredNotes_length (q : List ℝ) (notes : List NoteRow) :
    (scoredNotes q notes).length =
      (notes.filter (fun n => n.embedding.isSome)).length := by
  unfold scoredNotes
  rw [List.length_zip, batch_length, List.length_map]
  exact Nat.min_self _

open Classical in
theorem orderedInsert_filter_eq {α : Type} (key : α → ℝ) (x : α) (v : ℝ)
    (hx : key x = v) (s : List α) :
    (List.orderedInsert (fun a b => key b ≤ key a) x s).filter
        (fun a => decide (key a = v)) =
      x :: s.filter (fun a => decide (key a = v)) := by
  induction s with
  | nil => simp [hx]
  | cons y s ih =>
    by_cases hxy : key y ≤ key x
    · have hstep : List.orderedInsert (fun a b => key b ≤ key a) x (y :: s) =
          x :: y :: s := if_pos hxy
      rw [hstep]
      simp [List.filter_cons, hx]
    · have hstep : List.orderedInsert (fun a b => key b ≤ key a) x (y :: s) =
          y :: List.orderedInsert (fun a b => key b ≤ key a) x s := if_neg hxy
      rw [hstep]
      have hy : ¬(key y = v) := by
        intro h
        exact hxy (le_of_eq (hx ▸ h ▸ rfl))
      simp [List.filter_cons, hy, ih]

open Classical in
theorem orderedInsert_filter_ne {α : Type} (key : α → ℝ) (x : α) (v : ℝ)
    (hx : key x ≠ v) (s : List α) :
    (List.orderedInsert (fun a b => key b ≤ key a) x s).filter
        (fun a => decide (key a = v)) =
      s.filter (fun a => decide (key a = v)) := by
  induction s with
  | nil => simp [hx]
  | cons y s ih =>
    by_cases hxy : key y ≤ key x
    · have hstep : List.orderedInsert (fun a b => key b ≤ key a) x (y :: s) =
          x :: y :: s := if_pos hxy
      rw [hstep]
      simp [List.filter_cons, hx]
    · have hstep : List.orderedInsert (fun a b => key b ≤ key a) x (y :: s) =
          y :: List.orderedInsert (fun a b => key b ≤ key a) x s := if_neg hxy
      rw [hstep]
      by_cases hy : key y = v
      · simp [List.filter_cons, hy, ih]
      · simp [List.filter_cons, hy, ih]

open Classical in
theorem pySortDesc_filter_key {α : Type} (key : α → ℝ) (l : List α) (v : ℝ) :
    (pySortDesc key l).filter (fun a => decide (key a = v)) =
      l.filter (fun a => decide (key a = v)) := by
  induction l with
  | nil => rfl
  | cons x l ih =>
    have hstep : pySortDesc key (x :: l) =
        List.orderedInsert (fun a b => key b ≤ key a) x (pySortDesc key l) := rfl
    rw [hstep]
    by_cases hx : key x = v
    · rw [orderedInsert_filter_eq key x v hx _, ih]
      simp [List.filter_cons, hx]
    · rw [orderedInsert_filter_ne key x v hx _, ih]
      simp [List.filter_cons, hx]

theorem pySortDesc_sorted {α : Type} (key : α → ℝ) (l : List α) :
    List.Sorted (fun a b => key b ≤ key a) (pySortDesc key l) := by
  haveI : IsTotal α (fun a b => key b ≤ key a) :=
    ⟨fun a b => le_total (key b) (key a)⟩
  haveI : IsTrans α (fun a b => key b ≤ key a) :=
    ⟨fun a b c hab hbc => le_trans hbc hab⟩
  exact List.sorted_insertionSort _ l

theorem pySortDesc_perm {α : Type} (key : α → ℝ) (l : List α) :
    List.Perm (pySortDesc key l) l :=
  List.perm_insertionSort _ l

open Classical in
/-- C3: for every query vector and store state, `find` (1) returns only
notes that carry an embedding — absent-embedding notes are excluded from
the candidates, not scored as 0 —, (2) always returns
`min 3 (number of embedded notes)` results (it is total, so it cannot
crash when some notes lack embeddings), (3) is sorted by descending
similarity score, (4) within every class of equal scores the underlying
sort keeps exactly the scored candidates in their original fetch order
(which is ascending id, per the store's `ORDER BY id ASC`), and (5) the
result is the first three entries of that stably sorted list. -/
theorem claim_C3_ranking (q : List ℝ) (notes : List NoteRow) :
    (∀ x ∈ find q notes, x.1.embedding.isSome = true) ∧
    (find q notes).length =
      min 3 (notes.filter (fun n => n.embedding.isSome)).length ∧
    List.Sorted (fun a b : NoteRow × ℝ => b.2 ≤ a.2) (find q notes) ∧
    (∀ v : ℝ,
      (pySortDesc (fun x : NoteRow × ℝ => x.2) (scoredNotes q notes)).filter
          (fun x => decide (x.2 = v)) =
        (scoredNotes q notes).filter (fun x => decide (x.2 = v))) ∧
    find q notes =
      (pySortDesc (fun x : NoteRow × ℝ => x.2) (scoredNotes q notes)).take 3 := by
  refine ⟨?_, ?_, ?_, fun v => pySortDesc_filter_key _ _ v, rfl⟩
  · intro x hx
    have hx1 : x ∈ pySortDesc (fun x : NoteRow × ℝ => x.2) (scoredNotes q notes) :=
      List.mem_of_mem_take hx
    have hx2 : x ∈ scoredNotes q notes :=
      (pySortDesc_perm (fun x : NoteRow × ℝ => x.2) (scoredNotes q notes)).mem_iff.mp hx1
    have hx3 : x.1 ∈ notes.filter (fun n => n.embedding.isSome) :=
      (List.of_mem_zip hx2).1
    exact (List.mem_filter.mp hx3).2
  · show ((pySortDesc (fun x : NoteRow × ℝ => x.2) (scoredNotes q notes)).take 3).length = _
    rw [List.length_take, (pySortDesc_perm _ _).length_eq, scoredNotes_length]
  · exact List.Pairwise.sublist (List.take_sublist 3 _) (pySortDesc_sorted _ _)

/-- Concrete store for the C3 witness: one legacy note without an
embedding and one embedded note. -/
noncomputable def demoNotes : List NoteRow :=
  [⟨1, "legacy", none⟩, ⟨2, "embedded", some [(0 : ℝ)]⟩]

theorem find_demo_eval :
    find [(0 : ℝ)] demoNotes =
      [(⟨2, "embedded", some [(0 : ℝ)]⟩, (0 : ℝ))] := by
  have hq : norm2 [(0 : ℝ)] = 0 := by
    rw [norm2_eq_zero_iff]
    simp [dotp]
  have hfil : demoNotes.filter (fun n => n.embedding.isSome) =
      [⟨2, "embedded", some [(0 : ℝ)]⟩] := by
    simp [demoNotes, List.filter]
  have hbatch : cosine_similarity_batch (some [(0 : ℝ)])
      (some [[(0 : ℝ)]]) = [0] := by
    show (if ([[(0 : ℝ)]] : List (List ℝ)).length = 0 then []
      else if norm2 [(0 : ℝ)] = 0 then
        List.replicate ([[(0 : ℝ)]] : List (List ℝ)).length 0
      else ([[(0 : ℝ)]] : List (List ℝ)).map (fun row =>
        let nrm := if norm2 row = 0 then 1 else norm2 row
        clip1 (dotp (row.map (fun x => x / nrm))
          ([(0 : ℝ)].map (fun x => x / norm2 [(0 : ℝ)]))))) = [0]
    rw [if_neg (by simp), if_pos hq]
    rfl
  unfold find scoredNotes
  rw [hfil]
  have hmap : ([⟨2, "embedded", some [(0 : ℝ)]⟩] : List NoteRow).map
      (fun n => n.embedding.getD []) = [[(0 : ℝ)]] := rfl
  rw [hmap, hbatch]
  rfl

/-- Closed witness for C3: in a store holding one legacy note without an
embedding and one embedded note, the single returned result is the
embedded note (its embedding is present). -/
theorem claim_C3_ranking_witness :
    ((⟨2, "embedded", some [(0 : ℝ)]⟩ : NoteRow), (0 : ℝ)).1.embedding.isSome = true := by
  refine (claim_C3_ranking [(0 : ℝ)] demoNotes).1 _ ?_
  rw [find_demo_eval]
  exact List.mem_singleton.mpr rfl

/-! ## Ingestion (`ingestor.py` calling `database.py`) -/

/-- Python-level errors raised by the ingest chunk loop. -/
inductive PyError where
  | typeError (msg : String)
  | sqlite3Error (msg : String)
deriving DecidableEq

/-- A stored note row as inserted by `database.add_note`. -/
structure StoredNote where
  content : List Char
  embedding : Option (List Nat)
deriving DecidableEq

/-- The parameter names of `database.add_note (content, embedding = None)`. -/
def add_note_params : List String := ["content", "embedding"]

/-- Calling `database.add_note` with extra keyword arguments: Python
raises `TypeError` when a keyword does not name a parameter of the
callee; otherwise the row is inserted. -/
def call_add_note (kwargs : List String) (db : List StoredNote)
    (content : List Char) (embedding : List Nat) :
    Except PyError (List StoredNote) :=
  if kwargs.all (fun kw => add_note_params.contains kw) then
    Except.ok (db ++ [⟨content, some embedding⟩])
  else Except.error (PyError.typeError "unexpected keyword argument")

/-- One iteration of the chunk loop of `ingestor.ingest_file`: embed the
chunk, encode the vector, call
`add_note (chunk, embedding_bytes, source_file = file_name)`; a raised
`sqlite3.Error` propagates, any other exception is re-raised as
`sqlite3.Error`. -/
def ingestChunk (emb : List Char → List Nat) (db : List StoredNote)
    (chunk : List Char) : Except PyError (List StoredNote) :=
  match call_add_note ["source_file"] db chunk (vector_to_bytes (emb chunk)) with
  | Except.ok db2 => Except.ok db2
  | Except.error (PyError.sqlite3Error m) => Except.error (PyError.sqlite3Error m)
  | Except.error _ => Except.error (PyError.sqlite3Error "Error saving to database")

/-- `ingestor.ingest_file` after a successful UTF-8 read of a supported
file (reading and type gating are boundary concerns preceding this
logic): chunk the text, then store chunk by chunk, counting successes; an
error aborts the whole operation.  `emb` is the opaque embedder
(`ai_logic.text_to_vector`), producing a float32 bit-pattern vector. -/
def ingest_file (emb : List Char → List Nat) (text : List Char) :
    Except PyError (Nat × List StoredNote) :=
  let chunks := chunk_text text 500
  if chunks = [] then Except.ok (0, [])
  else
    chunks.foldlM
      (fun acc chunk =>
        (ingestChunk emb acc.2 chunk).map (fun db2 => (acc.1 + 1, db2)))
      ((0, []) : Nat × List StoredNote)

/-- C2 fails on the code: `ingestor.ingest_file` passes the keyword
argument `source_file` to `database.add_note`, which has no such
parameter, so the very first stored chunk raises `TypeError`, re-raised
as `sqlite3.Error`: ingesting the eleven-character text `hello world`
(one chunk) stores nothing and aborts instead of storing one note and
returning 1. -/
theorem claim_C2_ingest_code_bug :
    ingest_file (fun _ => [0]) ("hello world".toList) =
      Except.error (PyError.sqlite3Error "Error saving to database") ∧
    (chunk_text ("hello world".toList) 500).length = 1 :=
  ⟨rfl, rfl⟩
